import Mathlib

/-!
Verification of the word-stemming engine of `stemming/stemming.py`.

Words are embedded as `List Char` (Python `str`).  The dictionary file
`dictionary.txt` is external data loaded at process start; the set of valid
words is therefore a parameter `dict : Word → Bool` of every definition that
consults the Lexicon (`is_valid_word` in the source is a membership test in
that set).  Python's `str.lower`/`str.upper` act as the ASCII case maps on
all characters appearing here; they are embedded as `lowerChar`/`upperChar`.
`word[:-n]` is embedded as `dropR n word`, `word.endswith(s)` as
`s.toList <:+ word`, and iteration over `range(len(word))` as iteration
over `List.range word.length`.
-/

namespace Stemming

abbrev Word := List Char

/-- ASCII lower-casing of one character (Python `str.lower`, restricted to the
ASCII range which is the only range the program manipulates): code points
65-90 are shifted up by 32. -/
def lowerChar (c : Char) : Char :=
  if 65 ≤ c.toNat ∧ c.toNat ≤ 90 then Char.ofNat (c.toNat + 32) else c

/-- ASCII upper-casing of one character (Python `str.upper`): code points
97-122 are shifted down by 32. -/
def upperChar (c : Char) : Char :=
  if 97 ≤ c.toNat ∧ c.toNat ≤ 122 then Char.ofNat (c.toNat - 32) else c

/-- Python `str.capitalize`: first character upper-cased, the rest lower-cased. -/
def capitalize (w : Word) : Word :=
  match w with
  | [] => []
  | c :: cs => upperChar c :: cs.map lowerChar

/-- Source `get_extraneous_chars` (stemming.py:209-219): the string
`" \t\n\r!?.,()@#&*^\"\'"`. -/
def extraneous_chars : Word :=
  [' ', '\t', '\n', '\r', '!', '?', '.', ',', '(', ')', '@', '#', '&', '*', '^', '"', '\'']

def is_extraneous (c : Char) : Bool := decide (c ∈ extraneous_chars)

/-- Python `str.strip(chars)`: remove characters of the set from both ends. -/
def strip_extraneous (l : Word) : Word :=
  (l.dropWhile is_extraneous).rdropWhile is_extraneous

/-- Source `normalize_word` (stemming.py:222-240): lower-case, then strip the
extraneous characters from both ends. -/
def normalize_word (w : Word) : Word :=
  strip_extraneous (w.map lowerChar)

def vowels : List Char := ['a', 'e', 'i', 'o', 'u']

/-- Source `is_consonant` (stemming.py:262-297).  A letter is a consonant unless it
is a vowel, or it is a `'y'` preceded by a consonant (recursion backwards).
Out-of-range indices are totalized with the blank character, which the source
never reaches (see the checked variants below); at index 0 a `'y'` is a
consonant, which coincides with the generic non-vowel branch. -/
def is_consonant (w : Word) : Nat → Bool
  | 0 =>
    if w.getD 0 ' ' ∈ vowels then false else true
  | i + 1 =>
    let c := w.getD (i + 1) ' '
    if c ∈ vowels then false
    else if c = 'y' then !(is_consonant w i)
    else true

/-- Source `contains_vowel` (stemming.py:300-319): some index is not a consonant. -/
def contains_vowel (s : Word) : Bool :=
  (List.range s.length).any (fun i => !(is_consonant s i))

/-- Source `ends_double_consonant` (stemming.py:322-341). -/
def ends_double_consonant (w : Word) : Bool :=
  if 2 ≤ w.length then
    if w.getLastD ' ' = w.getD (w.length - 2) ' ' then
      is_consonant w (w.length - 1)
    else false
  else false

/-- Source `ends_cvc` (stemming.py:344-375). -/
def ends_cvc (w : Word) : Bool :=
  if w.length = 2 then
    !(is_consonant w 0) && is_consonant w 1
  else if 3 ≤ w.length then
    is_consonant w (w.length - 3) && !(is_consonant w (w.length - 2)) &&
      is_consonant w (w.length - 1) && decide (w.getLastD ' ' ∉ ['w', 'x', 'y'])
  else false

/-- The consonant/vowel signature built by `measure` (stemming.py:395-399),
with `true` standing for the marker `'c'` and `false` for `'v'`. -/
def cv_seq (s : Word) : List Bool :=
  (List.range s.length).map (is_consonant s)

/-- Counting (non-overlapping) occurrences of `"vc"` in the signature
(`cv_sequence.count("vc")`; occurrences of `"vc"` cannot overlap). -/
def count_vc : List Bool → Nat
  | [] => 0
  | [_] => 0
  | false :: true :: rest => count_vc (true :: rest) + 1
  | _ :: b :: rest => count_vc (b :: rest)

/-- Source `measure` (stemming.py:378-401). -/
def measure (s : Word) : Nat := count_vc (cv_seq s)

/-- Python `word[:-n]` (also `word[:-len(suffix)]`). -/
def dropR (n : Nat) (w : Word) : Word := w.take (w.length - n)

/-- Source `apply_rule_1a` (stemming.py:404-441). -/
def apply_rule_1a (w : Word) : Word :=
  if "ies".toList <:+ w ∧ w.length = 4 then dropR 1 w
  else if "sses".toList <:+ w ∨ "ies".toList <:+ w then dropR 2 w
  else if ¬ ("ss".toList <:+ w) ∧ "s".toList <:+ w then dropR 1 w
  else w

/-- The `for suffix in ["ed", "ing"]` loop of `apply_rule_1b`
(stemming.py:505-516): the first suffix that matches with a vowel-bearing
stem is removed; `none` plays the role of the loop ending with `stem = None`
(the assigned stem always holds a vowel, hence is never the falsy `""`). -/
def find_ed_ing_stem (w : Word) : Option Word :=
  if "ed".toList <:+ w ∧ contains_vowel (dropR 2 w) then some (dropR 2 w)
  else if "ing".toList <:+ w ∧ contains_vowel (dropR 3 w) then some (dropR 3 w)
  else none

/-- Source `apply_rule_1b` (stemming.py:444-532). -/
def apply_rule_1b (w : Word) : Word :=
  if "ied".toList <:+ w then
    if w.length = 4 then dropR 1 w else dropR 2 w
  else if "eed".toList <:+ w then
    if 0 < measure (dropR 3 w) then dropR 3 w ++ "ee".toList else w
  else
    match find_ed_ing_stem w with
    | none => w
    | some stem =>
      if "at".toList <:+ stem ∨ "bl".toList <:+ stem ∨ "iz".toList <:+ stem then
        stem ++ ['e']
      else if ends_double_consonant stem ∧ stem.getLastD ' ' ∉ ['l', 's', 'z'] then
        dropR 1 stem
      else if measure stem = 1 ∧ ends_cvc stem then stem ++ ['e']
      else stem

/-- Source `apply_rule_1c` (stemming.py:535-567). -/
def apply_rule_1c (w : Word) : Word :=
  if "y".toList <:+ w then
    if 1 < (dropR 1 w).length ∧ is_consonant (dropR 1 w) ((dropR 1 w).length - 1) then
      dropR 1 w ++ ['i']
    else w
  else w

/-- The suffix/replacement table of `apply_rule_2` (stemming.py:611-633),
in source order. -/
def rule_2_pairs : List (Word × Word) :=
  [("ational".toList, "ate".toList), ("tional".toList, "tion".toList),
   ("enci".toList, "ence".toList), ("anci".toList, "ance".toList),
   ("izer".toList, "ize".toList), ("bli".toList, "ble".toList),
   ("alli".toList, "al".toList), ("entli".toList, "ent".toList),
   ("eli".toList, "e".toList), ("ousli".toList, "ous".toList),
   ("ization".toList, "ize".toList), ("ation".toList, "ate".toList),
   ("ator".toList, "ate".toList), ("alism".toList, "al".toList),
   ("iveness".toList, "ive".toList), ("fulness".toList, "ful".toList),
   ("ousness".toList, "ous".toList), ("aliti".toList, "al".toList),
   ("iviti".toList, "ive".toList), ("biliti".toList, "ble".toList),
   ("fulli".toList, "ful".toList)]

/-- A `for suffix, replacement in [...]` loop returning
`word[:-len(suffix)] + replacement` for the first suffix that matches with
`measure(word[:-len(suffix)]) > 0` (used by rules 2 and 3). -/
def first_suffix_rule : List (Word × Word) → Word → Option Word
  | [], _ => none
  | (suf, repl) :: rest, w =>
    if suf <:+ w ∧ 0 < measure (dropR suf.length w) then
      some (dropR suf.length w ++ repl)
    else first_suffix_rule rest w

/-- Source `apply_rule_2` after its leading `"alli"` special case: the table scan
followed by the `"logi"` special case (stemming.py:611-642). -/
def rule_2_tail (w : Word) : Word :=
  match first_suffix_rule rule_2_pairs w with
  | some r => r
  | none =>
    if "logi".toList <:+ w ∧ 0 < measure (dropR 3 w) then dropR 1 w
    else w

/-- Source `apply_rule_2` (stemming.py:570-642).  The `"alli"` case of the source
returns `apply_rule_2(word[:-2])`; that recursive argument ends in `'l'`, so
its own `"alli"` test is false and the call is exactly `rule_2_tail` of it
(`rule_2_no_alli_after_drop` below proves the test is indeed false). -/
def apply_rule_2 (w : Word) : Word :=
  if "alli".toList <:+ w ∧ 0 < measure (dropR 4 w) then rule_2_tail (dropR 2 w)
  else rule_2_tail w

/-- The suffix/replacement table of `apply_rule_3` (stemming.py:668-676). -/
def rule_3_pairs : List (Word × Word) :=
  [("icate".toList, "ic".toList), ("ative".toList, ([] : Word)),
   ("alize".toList, "al".toList), ("iciti".toList, "ic".toList),
   ("ical".toList, "ic".toList), ("ful".toList, ([] : Word)),
   ("ness".toList, ([] : Word))]

/-- Source `apply_rule_3` (stemming.py:645-680). -/
def apply_rule_3 (w : Word) : Word :=
  match first_suffix_rule rule_3_pairs w with
  | some r => r
  | none => w

def rule_4_sufs_a : List Word :=
  ["al".toList, "ance".toList, "ence".toList, "er".toList, "ic".toList,
   "able".toList, "ible".toList, "ant".toList, "ement".toList,
   "ment".toList, "ent".toList]

def rule_4_sufs_b : List Word :=
  ["ou".toList, "ism".toList, "ate".toList, "iti".toList, "ous".toList,
   "ive".toList, "ize".toList]

/-- A `for suffix in [...]` loop returning `word[:-len(suffix)]` for the
first suffix that matches with `measure(word[:-len(suffix)]) > 1`
(the two loops of rule 4). -/
def first_suffix_drop : List Word → Word → Option Word
  | [], _ => none
  | suf :: rest, w =>
    if suf <:+ w ∧ 1 < measure (dropR suf.length w) then some (dropR suf.length w)
    else first_suffix_drop rest w

/-- Source `apply_rule_4` (stemming.py:683-733); the middle branch is the `"ion"`
case whose `stem[-1]` access is reached only under `measure(stem) > 1`. -/
def apply_rule_4 (w : Word) : Word :=
  match first_suffix_drop rule_4_sufs_a w with
  | some r => r
  | none =>
    if "ion".toList <:+ w ∧ 1 < measure (dropR 3 w) ∧
        (dropR 3 w).getLastD ' ' ∈ ['s', 't'] then dropR 3 w
    else
      match first_suffix_drop rule_4_sufs_b w with
      | some r => r
      | none => w

/-- Source `apply_rule_5a` (stemming.py:736-781). -/
def apply_rule_5a (w : Word) : Word :=
  if "e".toList <:+ w then
    if 1 < measure (dropR 1 w) then dropR 1 w
    else if measure (dropR 1 w) = 1 ∧ ends_cvc (dropR 1 w) = false then dropR 1 w
    else w
  else w

/-- Source `apply_rule_5b` (stemming.py:784-807). -/
def apply_rule_5b (w : Word) : Word :=
  if "ll".toList <:+ w ∧ 1 < measure (dropR 1 w) then dropR 1 w
  else w

/-- Source `exceptions_reversed` of `get_exceptions` (stemming.py:121-134). -/
def exceptions_reversed : List (Word × List Word) :=
  [("sky".toList, ["sky".toList, "skies".toList]),
   ("die".toList, ["dying".toList]),
   ("lie".toList, ["lying".toList]),
   ("tie".toList, ["tying".toList]),
   ("news".toList, ["news".toList]),
   ("inning".toList, ["innings".toList, "inning".toList]),
   ("outing".toList, ["outings".toList, "outing".toList]),
   ("canning".toList, ["cannings".toList, "canning".toList]),
   ("howe".toList, ["howe".toList]),
   ("proceed".toList, ["proceed".toList]),
   ("exceed".toList, ["exceed".toList]),
   ("succeed".toList, ["succeed".toList])]

/-- Source `get_exceptions` (stemming.py:110-142): the double loop building
`exception_mappings[exception] = stem`; the exception words are pairwise
distinct, so successive dictionary insertion is successive append. -/
def get_exceptions : List (Word × Word) :=
  exceptions_reversed.foldl (fun acc p => acc ++ p.2.map (fun e => (e, p.1))) []

/-- Source `is_valid_word` (stemming.py:243-259): membership in the dictionary
loaded from `dictionary.txt`, which is external data; the loaded set is the
parameter `dict`. -/
def is_valid_word (dict : Word → Bool) (w : Word) : Bool := dict w

/-- Source `stem_word` (stemming.py:145-206). -/
def stem_word (dict : Word → Bool) (token : Word) : Word :=
  let word := normalize_word token
  if is_valid_word dict word = false then word
  else
    match List.lookup word get_exceptions with
    | some s => s
    | none =>
      if word.length ≤ 2 then word
      else
        let w1 := apply_rule_1a word
        let c1 := if is_valid_word dict w1 then w1 else word
        let w2 := apply_rule_1b w1
        let c2 := if is_valid_word dict w2 then w2 else c1
        let w3 := apply_rule_1c w2
        let c3 := if is_valid_word dict w3 then w3 else c2
        let w4 := apply_rule_2 w3
        let c4 := if is_valid_word dict w4 then w4 else c3
        let w5 := apply_rule_3 w4
        let c5 := if is_valid_word dict w5 then w5 else c4
        let w6 := apply_rule_4 w5
        let c6 := if is_valid_word dict w6 then w6 else c5
        let w7 := apply_rule_5a w6
        let c7 := if is_valid_word dict w7 then w7 else c6
        let w8 := apply_rule_5b w7
        let c8 := if is_valid_word dict w8 then w8 else c7
        c8

/-! ### The cascade as a list of stage outputs (C1) -/

/-- The eight cascade stage outputs of `stem_word` (stemming.py:182-204),
each stage applied to the previous stage's output starting from `w`. -/
def stage_outputs (w : Word) : List Word :=
  let w1 := apply_rule_1a w
  let w2 := apply_rule_1b w1
  let w3 := apply_rule_1c w2
  let w4 := apply_rule_2 w3
  let w5 := apply_rule_3 w4
  let w6 := apply_rule_4 w5
  let w7 := apply_rule_5a w6
  let w8 := apply_rule_5b w7
  [w1, w2, w3, w4, w5, w6, w7, w8]

/-! ### Stage 1b as the claim states it (C7) -/

/-- The post-processing of a successful ed/ing drop, as the claim words it:
append `"e"` after an at/bl/iz stem, else undouble a final double consonant
not in l/s/z, else append `"e"` to a measure-1 CVC stem, else unchanged. -/
def rule_1b_post (stem : Word) : Word :=
  if "at".toList <:+ stem ∨ "bl".toList <:+ stem ∨ "iz".toList <:+ stem then
    stem ++ ['e']
  else if ends_double_consonant stem ∧ stem.getLastD ' ' ∉ ['l', 's', 'z'] then
    dropR 1 stem
  else if measure stem = 1 ∧ ends_cvc stem then stem ++ ['e']
  else stem

/-- Stage 1b exactly as claim C7 words it: the `"ied"` cases for length 4 and
longer, the `"eed"` case gated by the measure, the ed/ing drop gated by a
vowel in the stem (returning the original word with no post-processing when
no case matches), and the three-way post-processing after a successful
ed/ing drop. -/
def rule_1b_claim (w : Word) : Word :=
  if "ied".toList <:+ w ∧ w.length = 4 then dropR 1 w
  else if "ied".toList <:+ w ∧ 4 < w.length then dropR 2 w
  else if "eed".toList <:+ w then
    (if 0 < measure (dropR 3 w) then dropR 3 w ++ "ee".toList else w)
  else if "ed".toList <:+ w ∧ contains_vowel (dropR 2 w) then
    rule_1b_post (dropR 2 w)
  else if "ing".toList <:+ w ∧ contains_vowel (dropR 3 w) then
    rule_1b_post (dropR 3 w)
  else w

/-! ### Document stemming (C6) -/

/-- Python `str.split()` whitespace (ASCII range). -/
def is_py_space (c : Char) : Bool :=
  c = ' ' || c = '\t' || c = '\n' || c = '\x0b' || c = '\x0c' || c = '\r'

/-- Python `document.split()` (stemming.py:78): split on whitespace runs,
dropping empty pieces. -/
def py_split (doc : Word) : List Word :=
  (doc.splitOnP is_py_space).filter (fun w => !w.isEmpty)

/-- One execution of `stem_mappings[stem] = stem_mappings.get(stem, []) + [word]`
(stemming.py:82) on an insertion-ordered dictionary: an existing key keeps its
position and appends to its list, a new key is appended at the end. -/
def add_token (m : List (Word × List Word)) (s tok : Word) : List (Word × List Word) :=
  match m with
  | [] => [(s, [tok])]
  | (k, ws) :: rest =>
    if k = s then (k, ws ++ [tok]) :: rest
    else (k, ws) :: add_token rest s tok

/-- Source `stem_document` (stemming.py:62-84): group the original tokens by their
stem, in encounter order (Python dictionaries preserve insertion order). -/
def stem_document (dict : Word → Bool) (doc : Word) : List (Word × List Word) :=
  (py_split doc).foldl (fun m w => add_token m (stem_word dict w) w) []

/-! ### Top-stem selection (C2) -/

/-- The `stem_counts` dictionary of `get_top_stems` (stemming.py:48): the
number of tokens mapped to a stem (0 for absent keys, which the source only
queries at present keys). -/
def stem_counts (m : List (Word × List Word)) (k : Word) : Nat :=
  ((List.lookup k m).getD []).length

/-- The sort order of `stems.sort(key=lambda k: (stem_counts[k], k),
reverse=True)` (stemming.py:50): descending lexicographic on the pair
(count, stem text). -/
def stem_order (m : List (Word × List Word)) (a b : Word) : Prop :=
  toLex (stem_counts m b, b) ≤ toLex (stem_counts m a, a)

instance stem_order_dec (m : List (Word × List Word)) : DecidableRel (stem_order m) :=
  fun _ _ => inferInstanceAs (Decidable (_ ≤ _))

instance stem_order_total (m : List (Word × List Word)) : IsTotal Word (stem_order m) :=
  ⟨fun a b => (le_total (toLex (stem_counts m a, a)) (toLex (stem_counts m b, b))).symm⟩

instance stem_order_trans (m : List (Word × List Word)) : IsTrans Word (stem_order m) :=
  ⟨fun _ _ _ hab hbc => le_trans hbc hab⟩

/-- The key list sorted in place by `stems.sort(...)` (stemming.py:47-50).
The sort key `(stem_counts[k], k)` is injective on the distinct keys of a
dictionary, so the sorted list is the unique permutation that descends in
that key, which an insertion sort under `stem_order` produces. -/
def sorted_stems (m : List (Word × List Word)) : List Word :=
  List.insertionSort (stem_order m) (m.map Prod.fst)

/-- Source `bottom_count` (stemming.py:53): the count of the 25th-ranked stem. -/
def top_stem_threshold (m : List (Word × List Word)) : Nat :=
  stem_counts m ((sorted_stems m).getD 24 [])

/-- Source `get_top_stems` (stemming.py:37-59). -/
def get_top_stems (m : List (Word × List Word)) : List (Word × Nat) :=
  if 25 < (sorted_stems m).length then
    (sorted_stems m).filter
      (fun s => top_stem_threshold m ≤ stem_counts m s) |>.map
        (fun s => (s, stem_counts m s))
  else (sorted_stems m).map (fun s => (s, stem_counts m s))

/-! ### Checked variants (C9)

Each `.._chk` definition repeats the corresponding source function with every
fallible operation made explicit: an index access `word[i]` becomes
`List.get?`, a last-element access `word[-1]` becomes `List.getLast?`, and
`none` propagates — it is the value of a computation on which Python would
raise an `IndexError`.  `apply_rule_1a` performs no indexing (slices and
`endswith` are total in Python), so it has no checked variant and is used
directly.  C9's theorem proves the checked pipeline never produces `none`.
-/

def is_consonant_chk (w : Word) : Nat → Option Bool
  | 0 =>
    match w.get? 0 with
    | none => none
    | some c => if c ∈ vowels then some false else some true
  | i + 1 =>
    match w.get? (i + 1) with
    | none => none
    | some c =>
      if c ∈ vowels then some false
      else if c = 'y' then (is_consonant_chk w i).map (fun b => !b)
      else some true

/-- The `for i in range(len(stem))` loop of `contains_vowel`. -/
def cv_any_chk (s : Word) : List Nat → Option Bool
  | [] => some false
  | i :: rest =>
    match is_consonant_chk s i with
    | none => none
    | some b => if b then cv_any_chk s rest else some true

def contains_vowel_chk (s : Word) : Option Bool :=
  cv_any_chk s (List.range s.length)

/-- The `for i in range(len(stem))` loop of `measure` building `cv_sequence`. -/
def cv_seq_chk (s : Word) : List Nat → Option (List Bool)
  | [] => some []
  | i :: rest =>
    match is_consonant_chk s i with
    | none => none
    | some b => (cv_seq_chk s rest).map (fun bs => b :: bs)

def measure_chk (s : Word) : Option Nat :=
  (cv_seq_chk s (List.range s.length)).map count_vc

def ends_double_consonant_chk (w : Word) : Option Bool :=
  if 2 ≤ w.length then
    match w.getLast?, w.get? (w.length - 2) with
    | some c1, some c2 =>
      if c1 = c2 then is_consonant_chk w (w.length - 1) else some false
    | _, _ => none
  else some false

def ends_cvc_chk (w : Word) : Option Bool :=
  if w.length = 2 then
    match is_consonant_chk w 0, is_consonant_chk w 1 with
    | some b0, some b1 => some (!b0 && b1)
    | _, _ => none
  else if 3 ≤ w.length then
    match is_consonant_chk w (w.length - 3), is_consonant_chk w (w.length - 2),
        is_consonant_chk w (w.length - 1), w.getLast? with
    | some b3, some b2, some b1, some cl =>
      some (b3 && !b2 && b1 && decide (cl ∉ ['w', 'x', 'y']))
    | _, _, _, _ => none
  else some false

/-- The `"ing"` iteration of the ed/ing loop of `apply_rule_1b`. -/
def ing_step_chk (w : Word) : Option (Option Word) :=
  if "ing".toList <:+ w then
    match contains_vowel_chk (dropR 3 w) with
    | none => none
    | some b => if b then some (some (dropR 3 w)) else some none
  else some none

def find_ed_ing_stem_chk (w : Word) : Option (Option Word) :=
  if "ed".toList <:+ w then
    match contains_vowel_chk (dropR 2 w) with
    | none => none
    | some b => if b then some (some (dropR 2 w)) else ing_step_chk w
  else ing_step_chk w

/-- The final `measure(stem) == 1 and ends_cvc(stem)` step of rule 1b. -/
def rule_1b_tail_chk (stem : Word) : Option Word :=
  match measure_chk stem with
  | none => none
  | some mm =>
    if mm = 1 then
      match ends_cvc_chk stem with
      | none => none
      | some b => some (if b then stem ++ ['e'] else stem)
    else some stem

def apply_rule_1b_chk (w : Word) : Option Word :=
  if "ied".toList <:+ w then
    some (if w.length = 4 then dropR 1 w else dropR 2 w)
  else if "eed".toList <:+ w then
    match measure_chk (dropR 3 w) with
    | none => none
    | some mm => some (if 0 < mm then dropR 3 w ++ "ee".toList else w)
  else
    match find_ed_ing_stem_chk w with
    | none => none
    | some none => some w
    | some (some stem) =>
      if "at".toList <:+ stem ∨ "bl".toList <:+ stem ∨ "iz".toList <:+ stem then
        some (stem ++ ['e'])
      else
        match ends_double_consonant_chk stem with
        | none => none
        | some dc =>
          if dc then
            match stem.getLast? with
            | none => none
            | some cl =>
              if cl ∉ ['l', 's', 'z'] then some (dropR 1 stem)
              else rule_1b_tail_chk stem
          else rule_1b_tail_chk stem

def apply_rule_1c_chk (w : Word) : Option Word :=
  if "y".toList <:+ w then
    if 1 < (dropR 1 w).length then
      match is_consonant_chk (dropR 1 w) ((dropR 1 w).length - 1) with
      | none => none
      | some b => some (if b then dropR 1 w ++ ['i'] else w)
    else some w
  else some w

def first_suffix_rule_chk : List (Word × Word) → Word → Option (Option Word)
  | [], _ => some none
  | (suf, repl) :: rest, w =>
    if suf <:+ w then
      match measure_chk (dropR suf.length w) with
      | none => none
      | some mm =>
        if 0 < mm then some (some (dropR suf.length w ++ repl))
        else first_suffix_rule_chk rest w
    else first_suffix_rule_chk rest w

def rule_2_tail_chk (w : Word) : Option Word :=
  match first_suffix_rule_chk rule_2_pairs w with
  | none => none
  | some (some r) => some r
  | some none =>
    if "logi".toList <:+ w then
      match measure_chk (dropR 3 w) with
      | none => none
      | some mm => some (if 0 < mm then dropR 1 w else w)
    else some w

def apply_rule_2_chk (w : Word) : Option Word :=
  if "alli".toList <:+ w then
    match measure_chk (dropR 4 w) with
    | none => none
    | some mm => if 0 < mm then rule_2_tail_chk (dropR 2 w) else rule_2_tail_chk w
  else rule_2_tail_chk w

def apply_rule_3_chk (w : Word) : Option Word :=
  match first_suffix_rule_chk rule_3_pairs w with
  | none => none
  | some (some r) => some r
  | some none => some w

def first_suffix_drop_chk : List Word → Word → Option (Option Word)
  | [], _ => some none
  | suf :: rest, w =>
    if suf <:+ w then
      match measure_chk (dropR suf.length w) with
      | none => none
      | some mm =>
        if 1 < mm then some (some (dropR suf.length w))
        else first_suffix_drop_chk rest w
    else first_suffix_drop_chk rest w

/-- The second suffix loop of rule 4. -/
def rule_4_b_chk (w : Word) : Option Word :=
  match first_suffix_drop_chk rule_4_sufs_b w with
  | none => none
  | some (some r) => some r
  | some none => some w

def apply_rule_4_chk (w : Word) : Option Word :=
  match first_suffix_drop_chk rule_4_sufs_a w with
  | none => none
  | some (some r) => some r
  | some none =>
    if "ion".toList <:+ w then
      match measure_chk (dropR 3 w) with
      | none => none
      | some mm =>
        if 1 < mm then
          match (dropR 3 w).getLast? with
          | none => none
          | some cl =>
            if cl ∈ ['s', 't'] then some (dropR 3 w) else rule_4_b_chk w
        else rule_4_b_chk w
    else rule_4_b_chk w

def apply_rule_5a_chk (w : Word) : Option Word :=
  if "e".toList <:+ w then
    match measure_chk (dropR 1 w) with
    | none => none
    | some mm =>
      if 1 < mm then some (dropR 1 w)
      else
        if mm = 1 then
          match ends_cvc_chk (dropR 1 w) with
          | none => none
          | some b => some (if !b then dropR 1 w else w)
        else some w
  else some w

def apply_rule_5b_chk (w : Word) : Option Word :=
  if "ll".toList <:+ w then
    match measure_chk (dropR 1 w) with
    | none => none
    | some mm => some (if 1 < mm then dropR 1 w else w)
  else some w

def stem_word_chk (dict : Word → Bool) (token : Word) : Option Word :=
  let word := normalize_word token
  if is_valid_word dict word = false then some word
  else
    match List.lookup word get_exceptions with
    | some s => some s
    | none =>
      if word.length ≤ 2 then some word
      else
        let w1 := apply_rule_1a word
        let c1 := if is_valid_word dict w1 then w1 else word
        match apply_rule_1b_chk w1 with
        | none => none
        | some w2 =>
          let c2 := if is_valid_word dict w2 then w2 else c1
          match apply_rule_1c_chk w2 with
          | none => none
          | some w3 =>
            let c3 := if is_valid_word dict w3 then w3 else c2
            match apply_rule_2_chk w3 with
            | none => none
            | some w4 =>
              let c4 := if is_valid_word dict w4 then w4 else c3
              match apply_rule_3_chk w4 with
              | none => none
              | some w5 =>
                let c5 := if is_valid_word dict w5 then w5 else c4
                match apply_rule_4_chk w5 with
                | none => none
                | some w6 =>
                  let c6 := if is_valid_word dict w6 then w6 else c5
                  match apply_rule_5a_chk w6 with
                  | none => none
                  | some w7 =>
                    let c7 := if is_valid_word dict w7 then w7 else c6
                    match apply_rule_5b_chk w7 with
                    | none => none
                    | some w8 =>
                      some (if is_valid_word dict w8 then w8 else c7)

/-! ### Theorems -/

example : measure ("tree".toList) = 0 := by decide
example : measure ("monster".toList) = 2 := by decide
example : measure ("away".toList) = 2 := by decide
example : measure ("freed".toList) = 1 := by decide
example : is_consonant ("yak".toList) 0 = true := by decide
example : is_consonant ("awry".toList) 3 = false := by decide
example : is_consonant ("wildly".toList) 5 = false := by decide
example : apply_rule_1a ("talks".toList) = "talk".toList := by decide
example : apply_rule_1a ("dies".toList) = "die".toList := by decide
example : apply_rule_1a ("flies".toList) = "fli".toList := by decide
example : apply_rule_1b ("hopping".toList) = "hop".toList := by decide
example : apply_rule_1b ("agreed".toList) = "agree".toList := by decide
example : apply_rule_1b ("sized".toList) = "size".toList := by decide
example : apply_rule_1b ("filing".toList) = "file".toList := by decide
example : apply_rule_1c ("happy".toList) = "happi".toList := by decide
example : apply_rule_1c ("enjoy".toList) = "enjoy".toList := by decide
example : apply_rule_2 ("relational".toList) = "relate".toList := by decide
example : apply_rule_2 ("radicalli".toList) = "radical".toList := by decide
example : apply_rule_3 ("hopeful".toList) = "hope".toList := by decide
example : apply_rule_4 ("adoption".toList) = "adopt".toList := by decide
example : apply_rule_5a ("cease".toList) = "ceas".toList := by decide
example : apply_rule_5b ("controll".toList) = "control".toList := by decide
example : normalize_word ("..Talking!?".toList) = "talking".toList := by decide
example : stem_word (fun _ => false) ("akljfkasj".toList) = "akljfkasj".toList := by decide

/-! ### General helper lemmas -/

theorem lookup_mem {l : List (Word × Word)} {k v : Word}
    (h : List.lookup k l = some v) : (k, v) ∈ l := by
  induction l with
  | nil => simp [List.lookup] at h
  | cons p rest ih =>
    rw [List.lookup] at h
    split at h
    · rename_i heq
      have hk : k = p.1 := by simpa using heq
      have hv2 : p.2 = v := by simpa using h
      subst hk
      subst hv2
      exact List.mem_cons_self _ _
    · exact List.mem_cons_of_mem _ (ih h)

theorem ite_ne_nil {c : Prop} [Decidable c] {a b : Word}
    (ha : a ≠ []) (hb : b ≠ []) : (if c then a else b) ≠ [] := by
  split <;> assumption

theorem dropR_ne_nil {n : Nat} {w : Word} (h : n < w.length) : dropR n w ≠ [] := by
  have : 0 < (dropR n w).length := by
    simp only [dropR, List.length_take]
    omega
  exact List.length_pos.mp this

theorem measure_pos_ne_nil {s : Word} (h : 0 < measure s) : s ≠ [] := by
  intro hs
  subst hs
  simp [measure, cv_seq, count_vc] at h

theorem measure_eq_one_ne_nil {s : Word} (h : measure s = 1) : s ≠ [] := by
  intro hs
  subst hs
  simp [measure, cv_seq, count_vc] at h

theorem contains_vowel_ne_nil {s : Word} (h : contains_vowel s = true) : s ≠ [] := by
  intro hs
  subst hs
  simp [contains_vowel] at h

theorem ends_double_consonant_length {s : Word}
    (h : ends_double_consonant s = true) : 2 ≤ s.length := by
  by_contra hl
  rw [ends_double_consonant, if_neg hl] at h
  exact Bool.false_ne_true h

/-! ### Non-emptiness of the cascade stages -/

theorem apply_rule_1a_ne_nil {w : Word} (h : 2 ≤ w.length) : apply_rule_1a w ≠ [] := by
  rw [apply_rule_1a]
  split_ifs with h1 h2 h3
  · exact dropR_ne_nil (by omega)
  · rcases h2 with h2 | h2
    · refine dropR_ne_nil ?_
      have e : ("sses".toList).length = 4 := rfl
      have := h2.length_le
      omega
    · refine dropR_ne_nil ?_
      have e : ("ies".toList).length = 3 := rfl
      have := h2.length_le
      omega
  · exact dropR_ne_nil (by omega)
  · exact List.length_pos.mp (by omega)

theorem find_ed_ing_stem_vowel {w s : Word}
    (h : find_ed_ing_stem w = some s) : contains_vowel s = true := by
  rw [find_ed_ing_stem] at h
  split_ifs at h with h1 h2
  · obtain ⟨rfl⟩ := h
    exact h1.2
  · obtain ⟨rfl⟩ := h
    exact h2.2

theorem apply_rule_1b_ne_nil {w : Word} (h : w ≠ []) : apply_rule_1b w ≠ [] := by
  rw [apply_rule_1b]
  by_cases h1 : "ied".toList <:+ w
  · rw [if_pos h1]
    have e : ("ied".toList).length = 3 := rfl
    have hlen := h1.length_le
    split_ifs with h2
    · exact dropR_ne_nil (by omega)
    · exact dropR_ne_nil (by omega)
  · rw [if_neg h1]
    by_cases h3 : "eed".toList <:+ w
    · rw [if_pos h3]
      split_ifs with h4
      · simp
      · exact h
    · rw [if_neg h3]
      cases hf : find_ed_ing_stem w with
      | none => exact h
      | some stem =>
        dsimp only
        have hst : stem ≠ [] := contains_vowel_ne_nil (find_ed_ing_stem_vowel hf)
        split_ifs with h4 h5 h6
        · simp
        · refine dropR_ne_nil ?_
          have := ends_double_consonant_length h5.1
          omega
        · simp
        · exact hst

theorem apply_rule_1c_ne_nil {w : Word} (h : w ≠ []) : apply_rule_1c w ≠ [] := by
  rw [apply_rule_1c]
  split_ifs <;> simp [h]

theorem first_suffix_rule_ne_nil {table : List (Word × Word)} {w r : Word}
    (h : first_suffix_rule table w = some r) : r ≠ [] := by
  induction table with
  | nil => simp [first_suffix_rule] at h
  | cons p rest ih =>
    rw [first_suffix_rule] at h
    split_ifs at h with h1
    · obtain ⟨rfl⟩ := h
      intro hnil
      exact measure_pos_ne_nil h1.2 (List.append_eq_nil.mp hnil).1
    · exact ih h

theorem rule_2_tail_ne_nil {w : Word} (h : w ≠ []) : rule_2_tail w ≠ [] := by
  rw [rule_2_tail]
  cases hf : first_suffix_rule rule_2_pairs w with
  | some r => exact first_suffix_rule_ne_nil hf
  | none =>
    split_ifs with h1
    · refine dropR_ne_nil ?_
      have e : ("logi".toList).length = 4 := rfl
      have := h1.1.length_le
      omega
    · exact h

theorem apply_rule_2_ne_nil {w : Word} (h : w ≠ []) : apply_rule_2 w ≠ [] := by
  rw [apply_rule_2]
  split_ifs with h1
  · refine rule_2_tail_ne_nil (dropR_ne_nil ?_)
    have e : ("alli".toList).length = 4 := rfl
    have := h1.1.length_le
    omega
  · exact rule_2_tail_ne_nil h

theorem apply_rule_3_ne_nil {w : Word} (h : w ≠ []) : apply_rule_3 w ≠ [] := by
  rw [apply_rule_3]
  cases hf : first_suffix_rule rule_3_pairs w with
  | some r => exact first_suffix_rule_ne_nil hf
  | none => exact h

theorem first_suffix_drop_ne_nil {sufs : List Word} {w r : Word}
    (h : first_suffix_drop sufs w = some r) : r ≠ [] := by
  induction sufs with
  | nil => simp [first_suffix_drop] at h
  | cons suf rest ih =>
    rw [first_suffix_drop] at h
    split_ifs at h with h1
    · obtain ⟨rfl⟩ := h
      exact measure_pos_ne_nil (Nat.lt_of_le_of_lt (Nat.zero_le 1) h1.2)
    · exact ih h

theorem apply_rule_4_ne_nil {w : Word} (h : w ≠ []) : apply_rule_4 w ≠ [] := by
  rw [apply_rule_4]
  cases hf : first_suffix_drop rule_4_sufs_a w with
  | some r => exact first_suffix_drop_ne_nil hf
  | none =>
    split_ifs with h1
    · exact measure_pos_ne_nil (Nat.lt_of_le_of_lt (Nat.zero_le 1) h1.2.1)
    · cases hg : first_suffix_drop rule_4_sufs_b w with
      | some r => exact first_suffix_drop_ne_nil hg
      | none => exact h

theorem apply_rule_5a_ne_nil {w : Word} (h : w ≠ []) : apply_rule_5a w ≠ [] := by
  rw [apply_rule_5a]
  split_ifs with h1 h2 h3
  · exact measure_pos_ne_nil (Nat.lt_of_le_of_lt (Nat.zero_le 1) h2)
  · exact measure_eq_one_ne_nil h3.1
  · exact h
  · exact h

theorem apply_rule_5b_ne_nil {w : Word} (h : w ≠ []) : apply_rule_5b w ≠ [] := by
  rw [apply_rule_5b]
  split_ifs with h1
  · exact measure_pos_ne_nil (Nat.lt_of_le_of_lt (Nat.zero_le 1) h1.2)
  · exact h

/-! ### Claims C5, C4, C3 -/

/-- C5: a token whose normalized form is not a valid Lexicon word is returned
as that normalized form, unchanged. -/
theorem stem_word_oov_unchanged (dict : Word → Bool) (t : Word)
    (h : is_valid_word dict (normalize_word t) = false) :
    stem_word dict t = normalize_word t := by
  rw [stem_word, if_pos h]

/-- Witness for C5 at the token `"zzz"` and the empty dictionary. -/
theorem stem_word_oov_unchanged_witness :
    is_valid_word (fun _ => false) (normalize_word ("zzz".toList)) = false ∧
      stem_word (fun _ => false) ("zzz".toList) = normalize_word ("zzz".toList) :=
  ⟨rfl, stem_word_oov_unchanged (fun _ => false) ("zzz".toList) rfl⟩

theorem stem_word_of_exception {dict : Word → Bool} {w s : Word}
    (hn : normalize_word w = w) (hv : is_valid_word dict w = true)
    (hl : List.lookup w get_exceptions = some s) : stem_word dict w = s := by
  rw [stem_word]
  simp only [hn]
  rw [if_neg (by simp [hv]), hl]

/-- C4: every pair (word, stem) of the exception table is mapped by
`stem_word` to its stem, whenever the dictionary (external data) contains the
exception words, as the spec's Lexicon of valid English words does. -/
theorem stem_word_maps_exceptions (dict : Word → Bool)
    (hdict : ∀ p ∈ get_exceptions, dict p.1 = true) :
    ∀ p ∈ get_exceptions, stem_word dict p.1 = p.2 := by
  intro p hp
  have hn : ∀ q ∈ get_exceptions, normalize_word q.1 = q.1 := by decide
  have hl : ∀ q ∈ get_exceptions, List.lookup q.1 get_exceptions = some q.2 := by decide
  exact stem_word_of_exception (hn p hp) (hdict p hp) (hl p hp)

/-- Witness for C4: a dictionary holding exactly the exception words. -/
theorem stem_word_maps_exceptions_witness :
    (∀ p ∈ get_exceptions,
      (fun w => (List.lookup w get_exceptions).isSome) p.1 = true) ∧
    (∀ p ∈ get_exceptions,
      stem_word (fun w => (List.lookup w get_exceptions).isSome) p.1 = p.2) :=
  ⟨by decide, stem_word_maps_exceptions _ (by decide)⟩

/-- C3 counterexample: the input `"!"` is non-empty, yet `stem_word` returns
the empty string for it (its normalized form is empty, is out of vocabulary
for this dictionary, and is returned unchanged). -/
theorem stem_word_empty_on_punctuation_token :
    ("!".toList : Word) ≠ [] ∧ stem_word (fun _ => false) ("!".toList) = [] := by
  constructor
  · decide
  · rfl

/-- C3 as amended: for every input whose *normalized form* is non-empty,
`stem_word` returns a non-empty string (for every dictionary); inputs
normalizing to the empty string are returned as the empty string. -/
theorem stem_word_ne_nil_of_normalize_ne_nil (dict : Word → Bool) (t : Word)
    (h : normalize_word t ≠ []) : stem_word dict t ≠ [] := by
  by_cases hv : is_valid_word dict (normalize_word t) = false
  · rw [stem_word, if_pos hv]
    exact h
  · rw [stem_word, if_neg hv]
    cases hl : List.lookup (normalize_word t) get_exceptions with
    | some s =>
      simp only [hl]
      have hmem := lookup_mem hl
      have : ∀ q ∈ get_exceptions, q.2 ≠ [] := by decide
      exact this _ hmem
    | none =>
      simp only [hl]
      by_cases hlen : (normalize_word t).length ≤ 2
      · rw [if_pos hlen]
        exact h
      · rw [if_neg hlen]
        have hw : 2 ≤ (normalize_word t).length := by omega
        have h1 := apply_rule_1a_ne_nil hw
        have h2 := apply_rule_1b_ne_nil h1
        have h3 := apply_rule_1c_ne_nil h2
        have h4 := apply_rule_2_ne_nil h3
        have h5 := apply_rule_3_ne_nil h4
        have h6 := apply_rule_4_ne_nil h5
        have h7 := apply_rule_5a_ne_nil h6
        have h8 := apply_rule_5b_ne_nil h7
        exact ite_ne_nil h8 (ite_ne_nil h7 (ite_ne_nil h6 (ite_ne_nil h5
          (ite_ne_nil h4 (ite_ne_nil h3 (ite_ne_nil h2 (ite_ne_nil h1 h)))))))

/-- Witness for the amended C3 at the token `"Cats!"`. -/
theorem stem_word_ne_nil_witness :
    normalize_word ("Cats!".toList) ≠ [] ∧
      stem_word (fun _ => false) ("Cats!".toList) ≠ [] :=
  ⟨by decide, stem_word_ne_nil_of_normalize_ne_nil (fun _ => false) ("Cats!".toList)
    (by decide)⟩

/-! ### Character-level lemmas for the ASCII case maps -/

theorem toNat_ofNat_valid {n : Nat} (h : n.isValidChar) : (Char.ofNat n).toNat = n := by
  unfold Char.ofNat
  rw [dif_pos h]
  rfl

theorem ofNat_toNat (c : Char) : Char.ofNat c.toNat = c := by
  unfold Char.ofNat
  rw [dif_pos (show c.toNat.isValidChar from c.valid)]
  apply Char.eq_of_val_eq
  apply UInt32.eq_of_toBitVec_eq
  rfl

theorem lowerChar_idem (c : Char) : lowerChar (lowerChar c) = lowerChar c := by
  by_cases h : 65 ≤ c.toNat ∧ c.toNat ≤ 90
  · have h1 : lowerChar c = Char.ofNat (c.toNat + 32) := if_pos h
    have ht : (Char.ofNat (c.toNat + 32)).toNat = c.toNat + 32 :=
      toNat_ofNat_valid (Or.inl (by omega))
    rw [h1]
    exact if_neg (by rw [ht]; omega)
  · have h1 : lowerChar c = c := if_neg h
    rw [h1]
    exact h1

theorem lowerChar_upperChar (c : Char) : lowerChar (upperChar c) = lowerChar c := by
  by_cases h : 97 ≤ c.toNat ∧ c.toNat ≤ 122
  · have h1 : upperChar c = Char.ofNat (c.toNat - 32) := if_pos h
    have ht : (Char.ofNat (c.toNat - 32)).toNat = c.toNat - 32 :=
      toNat_ofNat_valid (Or.inl (by omega))
    have h2 : lowerChar (Char.ofNat (c.toNat - 32)) =
        Char.ofNat ((Char.ofNat (c.toNat - 32)).toNat + 32) := if_pos (by rw [ht]; omega)
    have h3 : lowerChar c = c := if_neg (by omega)
    rw [h1, h2, h3, ht]
    have he : c.toNat - 32 + 32 = c.toNat := by omega
    rw [he, ofNat_toNat]
  · have h1 : upperChar c = c := if_neg h
    rw [h1]

/-! ### Normalization lemmas -/

theorem map_eq_self_of_mem {f : Char → Char} :
    ∀ {l : Word}, (∀ x ∈ l, f x = x) → l.map f = l
  | [], _ => rfl
  | a :: l, h => by
    rw [List.map_cons, h a (List.mem_cons_self a l),
      map_eq_self_of_mem (fun x hx => h x (List.mem_cons_of_mem _ hx))]

theorem mem_strip_extraneous {l : Word} {x : Char}
    (h : x ∈ strip_extraneous l) : x ∈ l :=
  (List.dropWhile_suffix is_extraneous).subset
    (( List.rdropWhile_prefix _ _).subset h)

theorem dropWhile_rdropWhile_self {p : Char → Bool} {l : Word}
    (h : l.dropWhile p = l) : (l.rdropWhile p).dropWhile p = l.rdropWhile p := by
  cases hr : l.rdropWhile p with
  | nil => simp
  | cons a t =>
    have hpre : (a :: t) <+: l := by rw [← hr]; exact List.rdropWhile_prefix _ _
    obtain ⟨s, hs⟩ := hpre
    have hpa : ¬ p a = true := by
      intro hpa
      rw [← hs, List.cons_append, List.dropWhile_cons_of_pos hpa] at h
      have hlen := (List.dropWhile_sublist (l := t ++ s) p).length_le
      have := congrArg List.length h
      simp only [List.length_cons] at this
      omega
    rw [List.dropWhile_cons_of_neg hpa]

theorem strip_extraneous_idem (l : Word) :
    strip_extraneous (strip_extraneous l) = strip_extraneous l := by
  rw [strip_extraneous, strip_extraneous,
    dropWhile_rdropWhile_self (List.dropWhile_idempotent _ _),
    List.rdropWhile_idempotent]

theorem map_lowerChar_normalize (w : Word) :
    (normalize_word w).map lowerChar = normalize_word w := by
  refine map_eq_self_of_mem (fun x hx => ?_)
  have hx' : x ∈ w.map lowerChar := mem_strip_extraneous hx
  obtain ⟨y, _, rfl⟩ := List.mem_map.mp hx'
  exact lowerChar_idem y

/-- C10: `normalize_word` is idempotent. -/
theorem normalize_word_idempotent (w : Word) :
    normalize_word (normalize_word w) = normalize_word w :=
  calc normalize_word (normalize_word w)
      = strip_extraneous ((normalize_word w).map lowerChar) := rfl
    _ = strip_extraneous (normalize_word w) := by rw [map_lowerChar_normalize]
    _ = normalize_word w := strip_extraneous_idem _

/-! ### Case and punctuation invariance (C8) -/

theorem normalize_map_upper (t : Word) :
    normalize_word (t.map upperChar) = normalize_word t := by
  rw [normalize_word, normalize_word, List.map_map]
  congr 1
  refine List.map_congr_left (fun x _ => ?_)
  exact lowerChar_upperChar x

theorem normalize_capitalize (t : Word) :
    normalize_word (capitalize t) = normalize_word t := by
  cases t with
  | nil => rfl
  | cons c cs =>
    rw [capitalize, normalize_word, normalize_word]
    simp only [List.map_cons, List.map_map]
    rw [lowerChar_upperChar]
    congr 2
    refine List.map_congr_left (fun x _ => ?_)
    exact lowerChar_idem x

theorem lowerChar_extraneous {c : Char} (hc : c ∈ extraneous_chars) :
    lowerChar c = c := by
  have h : ∀ x ∈ extraneous_chars, lowerChar x = x := by decide
  exact h c hc

theorem normalize_cons_extraneous {c : Char} {t : Word}
    (hc : c ∈ extraneous_chars) : normalize_word (c :: t) = normalize_word t := by
  have hpc : is_extraneous c = true := decide_eq_true hc
  rw [normalize_word, List.map_cons, lowerChar_extraneous hc, strip_extraneous,
    List.dropWhile_cons_of_pos hpc]
  rfl

theorem normalize_append_extraneous {c : Char} {t : Word}
    (hc : c ∈ extraneous_chars) : normalize_word (t ++ [c]) = normalize_word t := by
  have hpc : is_extraneous c = true := decide_eq_true hc
  rw [normalize_word, normalize_word, List.map_append, List.map_singleton,
    lowerChar_extraneous hc, strip_extraneous, strip_extraneous, List.dropWhile_append]
  by_cases he : ((t.map lowerChar).dropWhile is_extraneous).isEmpty
  · rw [if_pos he, List.isEmpty_iff.mp he]
    simp [List.dropWhile_cons_of_pos hpc, List.rdropWhile_nil]
  · rw [if_neg he, List.rdropWhile_concat_pos _ _ _ hpc]

theorem stem_word_congr (dict : Word → Bool) {t t' : Word}
    (h : normalize_word t = normalize_word t') :
    stem_word dict t = stem_word dict t' := by
  rw [stem_word, stem_word, h]

/-- C8: `stem_word` is invariant under upper-casing, capitalization, and a
leading or trailing extraneous character. -/
theorem stem_word_case_punct_invariant (dict : Word → Bool) (t : Word) (c : Char)
    (hc : c ∈ extraneous_chars) :
    stem_word dict (t.map upperChar) = stem_word dict t ∧
    stem_word dict (capitalize t) = stem_word dict t ∧
    stem_word dict (c :: t) = stem_word dict t ∧
    stem_word dict (t ++ [c]) = stem_word dict t :=
  ⟨stem_word_congr dict (normalize_map_upper t),
   stem_word_congr dict (normalize_capitalize t),
   stem_word_congr dict (normalize_cons_extraneous hc),
   stem_word_congr dict (normalize_append_extraneous hc)⟩

/-- Witness for C8 at the token `"Cats"` and the character `'!'`. -/
theorem stem_word_case_punct_invariant_witness :
    ('!' ∈ extraneous_chars) ∧
    (stem_word (fun _ => false) (("Cats".toList).map upperChar) =
      stem_word (fun _ => false) ("Cats".toList) ∧
    stem_word (fun _ => false) (capitalize ("Cats".toList)) =
      stem_word (fun _ => false) ("Cats".toList) ∧
    stem_word (fun _ => false) ('!' :: "Cats".toList) =
      stem_word (fun _ => false) ("Cats".toList) ∧
    stem_word (fun _ => false) ("Cats".toList ++ ['!']) =
      stem_word (fun _ => false) ("Cats".toList)) :=
  ⟨by decide, stem_word_case_punct_invariant (fun _ => false) ("Cats".toList) '!'
    (by decide)⟩

theorem foldl_keep_getLastD (p : Word → Bool) (l : List Word) (d : Word) :
    l.foldl (fun acc o => if p o then o else acc) d = (l.filter p).getLastD d := by
  induction l generalizing d with
  | nil => rfl
  | cons x xs ih =>
    rw [List.foldl_cons, ih, List.filter_cons]
    by_cases h : p x = true
    · rw [if_pos h, if_pos h, List.getLastD_cons]
    · rw [if_neg h, if_neg h]

/-- C1: for a valid, non-exception, length-> 2 normalized word, `stem_word`
returns the last valid-word element among the eight cascade stage outputs,
and the normalized word itself when no stage output is valid. -/
theorem stem_word_eq_last_valid_stage (dict : Word → Bool) (t : Word)
    (hv : is_valid_word dict (normalize_word t) = true)
    (he : List.lookup (normalize_word t) get_exceptions = none)
    (hl : 2 < (normalize_word t).length) :
    stem_word dict t =
      ((stage_outputs (normalize_word t)).filter (is_valid_word dict)).getLastD
        (normalize_word t) := by
  rw [stem_word, if_neg (by simp [hv])]
  simp only [he]
  rw [if_neg (by omega)]
  rw [← foldl_keep_getLastD]
  rfl

/-- Witness for C1 at the token `"talks"` and the dictionary
`{"talks", "talk"}`. -/
theorem stem_word_eq_last_valid_stage_witness :
    is_valid_word (fun w => (w == "talks".toList) || (w == "talk".toList))
        (normalize_word ("talks".toList)) = true ∧
    List.lookup (normalize_word ("talks".toList)) get_exceptions = none ∧
    2 < (normalize_word ("talks".toList)).length ∧
    stem_word (fun w => (w == "talks".toList) || (w == "talk".toList))
        ("talks".toList) =
      ((stage_outputs (normalize_word ("talks".toList))).filter
        (is_valid_word (fun w => (w == "talks".toList) || (w == "talk".toList)))).getLastD
          (normalize_word ("talks".toList)) :=
  ⟨by decide, by decide, by decide,
    stem_word_eq_last_valid_stage _ _ (by decide) (by decide) (by decide)⟩

/-- C7: `apply_rule_1b` behaves on every word as the claim's description of
stage 1b specifies.  (The only length-3 word ending in `"ied"` is `"ied"`
itself, for which the claim's ed-drop clause and the code's ied clause both
produce `"i"`.) -/
theorem apply_rule_1b_matches_spec (w : Word) : apply_rule_1b w = rule_1b_claim w := by
  by_cases h1 : "ied".toList <:+ w
  · have e3 : ("ied".toList).length = 3 := rfl
    have hlen := h1.length_le
    by_cases h2 : w.length = 4
    · rw [apply_rule_1b, if_pos h1, if_pos h2, rule_1b_claim, if_pos ⟨h1, h2⟩]
    · by_cases h3 : 4 < w.length
      · rw [apply_rule_1b, if_pos h1, if_neg h2, rule_1b_claim,
          if_neg (fun hc => h2 hc.2), if_pos ⟨h1, h3⟩]
      · have hw : w = "ied".toList := by
          obtain ⟨s, hs⟩ := h1
          have hls := congrArg List.length hs
          simp only [List.length_append] at hls
          have : s = [] := List.length_eq_zero.mp (by omega)
          subst this
          simpa using hs.symm
        subst hw
        decide
  · rw [apply_rule_1b, if_neg h1, rule_1b_claim,
      if_neg (show ¬("ied".toList <:+ w ∧ w.length = 4) from fun hc => h1 hc.1),
      if_neg (show ¬("ied".toList <:+ w ∧ 4 < w.length) from fun hc => h1 hc.1)]
    by_cases h3 : "eed".toList <:+ w
    · rw [if_pos h3, if_pos h3]
    · rw [if_neg h3, if_neg h3, find_ed_ing_stem]
      by_cases h4 : "ed".toList <:+ w ∧ contains_vowel (dropR 2 w)
      · rw [if_pos h4, if_pos h4]
        rfl
      · rw [if_neg h4, if_neg h4]
        by_cases h5 : "ing".toList <:+ w ∧ contains_vowel (dropR 3 w)
        · rw [if_pos h5, if_pos h5]
          rfl
        · rw [if_neg h5, if_neg h5]

theorem lookup_cons_pos {β : Type} {k x : Word} {v : β} {rest : List (Word × β)}
    (h : x = k) : List.lookup x ((k, v) :: rest) = some v := by
  subst h
  simp [List.lookup]

theorem lookup_cons_neg {β : Type} {k x : Word} {v : β} {rest : List (Word × β)}
    (h : x ≠ k) : List.lookup x ((k, v) :: rest) = List.lookup x rest := by
  rw [List.lookup, show (x == k) = false from beq_eq_false_iff_ne.mpr h]

theorem add_token_lookup (m : List (Word × List Word)) (s tok x : Word) :
    List.lookup x (add_token m s tok) =
      if x = s then some (((List.lookup s m).getD []) ++ [tok])
      else List.lookup x m := by
  induction m with
  | nil =>
    by_cases h : x = s
    · subst h
      simp [add_token, List.lookup]
    · rw [show add_token [] s tok = [(s, [tok])] from rfl, lookup_cons_neg h,
        if_neg h]
  | cons p rest ih =>
    obtain ⟨k, ws⟩ := p
    by_cases hk : k = s
    · subst hk
      rw [show add_token ((k, ws) :: rest) k tok = (k, ws ++ [tok]) :: rest from
        if_pos rfl]
      by_cases hx : x = k
      · rw [lookup_cons_pos hx, if_pos hx, lookup_cons_pos rfl]
        rfl
      · rw [lookup_cons_neg hx, if_neg hx, lookup_cons_neg hx]
    · rw [show add_token ((k, ws) :: rest) s tok = (k, ws) :: add_token rest s tok from
        if_neg hk]
      by_cases hx : x = k
      · have hxs : x ≠ s := fun h => hk (hx ▸ h)
        rw [lookup_cons_pos hx, if_neg hxs, lookup_cons_pos hx]
      · rw [lookup_cons_neg hx, ih, lookup_cons_neg (fun h => hk h.symm),
          lookup_cons_neg hx]

theorem mem_keys_add_token {m : List (Word × List Word)} {s tok x : Word} :
    x ∈ (add_token m s tok).map Prod.fst ↔ x ∈ m.map Prod.fst ∨ x = s := by
  induction m with
  | nil => simp [add_token]
  | cons p rest ih =>
    obtain ⟨k, ws⟩ := p
    by_cases hk : k = s
    · subst hk
      rw [show add_token ((k, ws) :: rest) k tok = (k, ws ++ [tok]) :: rest from
        if_pos rfl]
      simp only [List.map_cons, List.mem_cons]
      tauto
    · rw [show add_token ((k, ws) :: rest) s tok = (k, ws) :: add_token rest s tok from
        if_neg hk]
      simp only [List.map_cons, List.mem_cons, ih]
      tauto

theorem nodup_keys_add_token {m : List (Word × List Word)} {s tok : Word}
    (h : (m.map Prod.fst).Nodup) : ((add_token m s tok).map Prod.fst).Nodup := by
  induction m with
  | nil => simp [add_token]
  | cons p rest ih =>
    obtain ⟨k, ws⟩ := p
    simp only [List.map_cons, List.nodup_cons] at h
    by_cases hk : k = s
    · subst hk
      rw [show add_token ((k, ws) :: rest) k tok = (k, ws ++ [tok]) :: rest from
        if_pos rfl]
      simp only [List.map_cons, List.nodup_cons]
      exact ⟨h.1, h.2⟩
    · rw [show add_token ((k, ws) :: rest) s tok = (k, ws) :: add_token rest s tok from
        if_neg hk]
      simp only [List.map_cons, List.nodup_cons]
      refine ⟨?_, ih h.2⟩
      rw [mem_keys_add_token]
      rintro (hmem | rfl)
      · exact h.1 hmem
      · exact hk rfl

theorem lookup_eq_some_of_mem {β : Type} {l : List (Word × β)} {s : Word} {ws : β}
    (hnd : (l.map Prod.fst).Nodup) (h : (s, ws) ∈ l) : List.lookup s l = some ws := by
  induction l with
  | nil => simp at h
  | cons p rest ih =>
    obtain ⟨k, vs⟩ := p
    simp only [List.map_cons, List.nodup_cons] at hnd
    rcases List.mem_cons.mp h with heq | hmem
    · obtain ⟨h1, h2⟩ := Prod.mk.injEq .. ▸ heq
      subst h1
      subst h2
      exact lookup_cons_pos rfl
    · have hs : s ≠ k := by
        rintro rfl
        exact hnd.1 (List.mem_map_of_mem Prod.fst hmem)
      rw [lookup_cons_neg hs]
      exact ih hnd.2 hmem

theorem lookup_mem_pairs {β : Type} {l : List (Word × β)} {k : Word} {v : β}
    (h : List.lookup k l = some v) : (k, v) ∈ l := by
  induction l with
  | nil => simp [List.lookup] at h
  | cons p rest ih =>
    rw [List.lookup] at h
    split at h
    · rename_i heq
      have hk : k = p.1 := by simpa using heq
      have hv2 : p.2 = v := by simpa using h
      subst hk
      subst hv2
      exact List.mem_cons_self _ _
    · exact List.mem_cons_of_mem _ (ih h)

theorem stem_fold_lookup (dict : Word → Bool) (toks : List Word) (s : Word) :
    List.lookup s (toks.foldl (fun m w => add_token m (stem_word dict w) w) []) =
      (if toks.filter (fun w => stem_word dict w == s) = [] then none
       else some (toks.filter (fun w => stem_word dict w == s))) := by
  induction toks using List.reverseRecOn with
  | nil => simp
  | append_singleton toks w ih =>
    rw [List.foldl_append, List.foldl_cons, List.foldl_nil, add_token_lookup,
      List.filter_append, List.filter_cons, List.filter_nil]
    by_cases hs : s = stem_word dict w
    · rw [if_pos hs, ← hs, ih]
      by_cases hf : toks.filter (fun w' => stem_word dict w' == s) = []
      · rw [if_pos hf, hf]
        simp
      · rw [if_neg hf]
        simp [hf]
    · have hbeq : (stem_word dict w == s) = false := by
        simp only [beq_eq_false_iff_ne, ne_eq]
        exact fun hh => hs hh.symm
      rw [if_neg hs, ih, hbeq]
      simp

theorem stem_document_nodup_keys (dict : Word → Bool) (doc : Word) :
    ((stem_document dict doc).map Prod.fst).Nodup := by
  rw [stem_document]
  generalize py_split doc = toks
  induction toks using List.reverseRecOn with
  | nil => simp
  | append_singleton toks w ih =>
    rw [List.foldl_append, List.foldl_cons, List.foldl_nil]
    exact nodup_keys_add_token ih

/-- C6: `stem_document` splits the document on whitespace and groups the
original tokens by their stem: the keys are exactly the stems of the tokens,
each key's list is the in-order sublist of tokens having that stem, every
token lies in the list keyed by its own stem and in no other, and an empty
token list yields the empty mapping. -/
theorem stem_document_groups (dict : Word → Bool) (doc : Word) :
    (py_split doc = [] → stem_document dict doc = []) ∧
    ((stem_document dict doc).map Prod.fst).Nodup ∧
    (∀ s ws, (s, ws) ∈ stem_document dict doc ↔
      (ws = (py_split doc).filter (fun w => stem_word dict w == s) ∧ ws ≠ [])) ∧
    (∀ w ∈ py_split doc, ∃ q ∈ stem_document dict doc,
      q.1 = stem_word dict w ∧ w ∈ q.2) ∧
    (∀ w ∈ py_split doc, ∀ q ∈ stem_document dict doc,
      (w ∈ q.2 ↔ q.1 = stem_word dict w)) := by
  have hchar : ∀ s ws, (s, ws) ∈ stem_document dict doc ↔
      (ws = (py_split doc).filter (fun w => stem_word dict w == s) ∧ ws ≠ []) := by
    intro s ws
    constructor
    · intro hmem
      have hl := lookup_eq_some_of_mem (stem_document_nodup_keys dict doc) hmem
      rw [stem_document, stem_fold_lookup] at hl
      by_cases hf : (py_split doc).filter (fun w => stem_word dict w == s) = []
      · rw [if_pos hf] at hl
        exact absurd hl (by simp)
      · rw [if_neg hf] at hl
        obtain ⟨rfl⟩ := Option.some.injEq .. ▸ hl
        exact ⟨rfl, hf⟩
    · rintro ⟨rfl, hne⟩
      have hl : List.lookup s (stem_document dict doc) =
          some ((py_split doc).filter (fun w => stem_word dict w == s)) := by
        rw [stem_document, stem_fold_lookup, if_neg hne]
      exact lookup_mem_pairs hl
  refine ⟨?_, stem_document_nodup_keys dict doc, hchar, ?_, ?_⟩
  · intro h
    rw [stem_document, h]
    rfl
  · intro w hw
    refine ⟨(stem_word dict w,
      (py_split doc).filter (fun w' => stem_word dict w' == stem_word dict w)),
      ?_, rfl, ?_⟩
    · refine (hchar _ _).mpr ⟨rfl, ?_⟩
      exact List.ne_nil_of_mem (List.mem_filter.mpr ⟨hw, by simp⟩)
    · exact List.mem_filter.mpr ⟨hw, by simp⟩
  · intro w hw q hq
    obtain ⟨s, ws⟩ := q
    obtain ⟨rfl, -⟩ := (hchar _ _).mp hq
    constructor
    · intro hmemf
      have := (List.mem_filter.mp hmemf).2
      simp only [beq_iff_eq] at this
      exact this.symm
    · intro hqs
      exact List.mem_filter.mpr ⟨hw, by simp [hqs.symm]⟩

/-- Witness instantiating C6's theorem at a concrete document. -/
theorem stem_document_groups_witness :
    (py_split ("go going".toList) = [] →
      stem_document (fun _ => false) ("go going".toList) = []) ∧
    ((stem_document (fun _ => false) ("go going".toList)).map Prod.fst).Nodup ∧
    (∀ s ws, (s, ws) ∈ stem_document (fun _ => false) ("go going".toList) ↔
      (ws = (py_split ("go going".toList)).filter
        (fun w => stem_word (fun _ => false) w == s) ∧ ws ≠ [])) ∧
    (∀ w ∈ py_split ("go going".toList),
      ∃ q ∈ stem_document (fun _ => false) ("go going".toList),
        q.1 = stem_word (fun _ => false) w ∧ w ∈ q.2) ∧
    (∀ w ∈ py_split ("go going".toList),
      ∀ q ∈ stem_document (fun _ => false) ("go going".toList),
        (w ∈ q.2 ↔ q.1 = stem_word (fun _ => false) w)) :=
  stem_document_groups (fun _ => false) ("go going".toList)

theorem sorted_stems_length (m : List (Word × List Word)) :
    (sorted_stems m).length = m.length := by
  rw [sorted_stems, (List.perm_insertionSort (stem_order m) (m.map Prod.fst)).length_eq,
    List.length_map]

/-- C2: `get_top_stems` returns (stem, count) pairs sorted by count
descending with the stem text as descending tiebreaker; with more than 25
distinct stems it returns exactly the stems whose count reaches the count of
the 25th-ranked stem, otherwise all entries; counts are non-increasing. -/
theorem get_top_stems_spec (m : List (Word × List Word))
    (hnd : (m.map Prod.fst).Nodup) :
    List.Sorted (fun p q : Word × Nat => toLex (q.2, q.1) ≤ toLex (p.2, p.1))
      (get_top_stems m) ∧
    List.Sorted (fun p q : Word × Nat => q.2 ≤ p.2) (get_top_stems m) ∧
    (if 25 < m.length then
      ∀ s c, (s, c) ∈ get_top_stems m ↔
        (∃ ws, (s, ws) ∈ m ∧ c = ws.length ∧ top_stem_threshold m ≤ c)
     else
      ∀ s c, (s, c) ∈ get_top_stems m ↔ (∃ ws, (s, ws) ∈ m ∧ c = ws.length)) := by
  have hsorted : List.Sorted (stem_order m) (sorted_stems m) :=
    List.sorted_insertionSort _ _
  have hperm : List.Perm (sorted_stems m) (m.map Prod.fst) :=
    List.perm_insertionSort _ _
  have key_sorted : ∀ l : List Word, List.Sublist l (sorted_stems m) →
      List.Sorted (fun p q : Word × Nat => toLex (q.2, q.1) ≤ toLex (p.2, p.1))
        (l.map (fun s => (s, stem_counts m s))) := by
    intro l hsub
    exact (hsorted.sublist hsub).map _ (fun a b h => h)
  have hmem_pairs : ∀ (l : List Word) (s : Word) (c : Nat),
      ((s, c) ∈ l.map (fun x => (x, stem_counts m x))) ↔
        (s ∈ l ∧ c = stem_counts m s) := by
    intro l s c
    rw [List.mem_map]
    constructor
    · rintro ⟨a, ha, heq⟩
      obtain ⟨h1, h2⟩ := Prod.mk.injEq .. ▸ heq
      subst h1
      exact ⟨ha, h2.symm⟩
    · rintro ⟨hs, rfl⟩
      exact ⟨s, hs, rfl⟩
  have hcount : ∀ s ws, (s, ws) ∈ m → stem_counts m s = ws.length := by
    intro s ws h
    rw [stem_counts, lookup_eq_some_of_mem hnd h]
    rfl
  have hmem_m : ∀ s : Word, s ∈ m.map Prod.fst ↔ ∃ ws, (s, ws) ∈ m := by
    intro s
    rw [List.mem_map]
    constructor
    · rintro ⟨⟨k, ws⟩, hmem, rfl⟩
      exact ⟨ws, hmem⟩
    · rintro ⟨ws, h⟩
      exact ⟨(s, ws), h, rfl⟩
  have hlen : (sorted_stems m).length = m.length := sorted_stems_length m
  by_cases hc : 25 < m.length
  · have hc' : 25 < (sorted_stems m).length := by omega
    have hout : get_top_stems m = ((sorted_stems m).filter
        (fun s => top_stem_threshold m ≤ stem_counts m s)).map
          (fun s => (s, stem_counts m s)) := by
      rw [get_top_stems, if_pos hc']
    refine ⟨?_, ?_, ?_⟩
    · rw [hout]
      exact key_sorted _ (List.filter_sublist _)
    · rw [hout]
      refine ((hsorted.sublist (List.filter_sublist _)).map _ ?_)
      intro a b h
      rcases (Prod.Lex.le_iff _ _).mp h with h' | h'
      · exact Nat.le_of_lt h'
      · exact Nat.le_of_eq h'.1
    · rw [if_pos hc]
      intro s c
      rw [hout, hmem_pairs, List.mem_filter]
      constructor
      · rintro ⟨⟨hs, hthr⟩, rfl⟩
        obtain ⟨ws, hws⟩ := (hmem_m s).mp (hperm.mem_iff.mp hs)
        refine ⟨ws, hws, hcount s ws hws, ?_⟩
        simpa using hthr
      · rintro ⟨ws, hws, rfl, hthr⟩
        have hcnt := hcount s ws hws
        refine ⟨⟨hperm.mem_iff.mpr ((hmem_m s).mpr ⟨ws, hws⟩), ?_⟩, hcnt.symm⟩
        simpa [hcnt] using hthr
  · have hc' : ¬ 25 < (sorted_stems m).length := by omega
    have hout : get_top_stems m =
        (sorted_stems m).map (fun s => (s, stem_counts m s)) := by
      rw [get_top_stems, if_neg hc']
    refine ⟨?_, ?_, ?_⟩
    · rw [hout]
      exact key_sorted _ (List.Sublist.refl _)
    · rw [hout]
      refine (hsorted.map _ ?_)
      intro a b h
      rcases (Prod.Lex.le_iff _ _).mp h with h' | h'
      · exact Nat.le_of_lt h'
      · exact Nat.le_of_eq h'.1
    · rw [if_neg hc]
      intro s c
      rw [hout, hmem_pairs]
      constructor
      · rintro ⟨hs, rfl⟩
        obtain ⟨ws, hws⟩ := (hmem_m s).mp (hperm.mem_iff.mp hs)
        exact ⟨ws, hws, hcount s ws hws⟩
      · rintro ⟨ws, hws, rfl⟩
        exact ⟨hperm.mem_iff.mpr ((hmem_m s).mpr ⟨ws, hws⟩), (hcount s ws hws).symm⟩

/-- Witness for C2 at a concrete two-stem mapping. -/
theorem get_top_stems_spec_witness :
    ((([("b".toList, ["x".toList, "y".toList]),
        ("a".toList, ["z".toList])] : List (Word × List Word)).map Prod.fst).Nodup) ∧
    (List.Sorted (fun p q : Word × Nat => toLex (q.2, q.1) ≤ toLex (p.2, p.1))
      (get_top_stems [("b".toList, ["x".toList, "y".toList]),
        ("a".toList, ["z".toList])]) ∧
    List.Sorted (fun p q : Word × Nat => q.2 ≤ p.2)
      (get_top_stems [("b".toList, ["x".toList, "y".toList]),
        ("a".toList, ["z".toList])]) ∧
    (if 25 < ([("b".toList, ["x".toList, "y".toList]),
        ("a".toList, ["z".toList])] : List (Word × List Word)).length then
      ∀ s c, (s, c) ∈ get_top_stems [("b".toList, ["x".toList, "y".toList]),
          ("a".toList, ["z".toList])] ↔
        (∃ ws, (s, ws) ∈ ([("b".toList, ["x".toList, "y".toList]),
          ("a".toList, ["z".toList])] : List (Word × List Word)) ∧ c = ws.length ∧
          top_stem_threshold [("b".toList, ["x".toList, "y".toList]),
            ("a".toList, ["z".toList])] ≤ c)
     else
      ∀ s c, (s, c) ∈ get_top_stems [("b".toList, ["x".toList, "y".toList]),
          ("a".toList, ["z".toList])] ↔
        (∃ ws, (s, ws) ∈ ([("b".toList, ["x".toList, "y".toList]),
          ("a".toList, ["z".toList])] : List (Word × List Word)) ∧ c = ws.length))) :=
  ⟨by decide, get_top_stems_spec _ (by decide)⟩

/-! ### Totality of the checked pipeline (C9) -/

theorem get?_eq_some_getD {w : Word} {i : Nat} {d : Char} (h : i < w.length) :
    w.get? i = some (w.getD i d) := by
  rw [List.getD_eq_getElem?_getD, ← List.get?_eq_getElem?, List.get?_eq_get h]
  rfl

theorem getLast?_eq_some_getLastD {w : Word} {d : Char} (h : w ≠ []) :
    w.getLast? = some (w.getLastD d) := by
  cases hl : w.getLast? with
  | none => exact absurd (List.getLast?_eq_none_iff.mp hl) h
  | some a =>
    rw [List.getLastD_eq_getLast?, hl]
    rfl

theorem is_consonant_chk_eq {w : Word} :
    ∀ i, i < w.length → is_consonant_chk w i = some (is_consonant w i) := by
  intro i
  induction i with
  | zero =>
    intro h
    simp only [is_consonant_chk, is_consonant,
      get?_eq_some_getD (d := ' ') h]
    split_ifs <;> rfl
  | succ j ih =>
    intro h
    have hj : j < w.length := Nat.lt_of_succ_lt h
    simp only [is_consonant_chk, is_consonant,
      get?_eq_some_getD (d := ' ') h, ih hj]
    split_ifs <;> rfl

theorem cv_any_chk_eq {s : Word} :
    ∀ {l : List Nat}, (∀ i ∈ l, i < s.length) →
      cv_any_chk s l = some (l.any (fun i => !(is_consonant s i))) := by
  intro l
  induction l with
  | nil => intro _; rfl
  | cons i rest ih =>
    intro h
    have hi := h i (List.mem_cons_self _ _)
    simp only [cv_any_chk, is_consonant_chk_eq i hi, List.any_cons]
    cases hb : is_consonant s i with
    | true =>
      rw [if_pos rfl, ih (fun j hj => h j (List.mem_cons_of_mem _ hj))]
      simp
    | false => simp

theorem contains_vowel_chk_eq (s : Word) :
    contains_vowel_chk s = some (contains_vowel s) := by
  rw [contains_vowel_chk, contains_vowel]
  exact cv_any_chk_eq (fun i hi => List.mem_range.mp hi)

theorem cv_seq_chk_eq {s : Word} :
    ∀ {l : List Nat}, (∀ i ∈ l, i < s.length) →
      cv_seq_chk s l = some (l.map (is_consonant s)) := by
  intro l
  induction l with
  | nil => intro _; rfl
  | cons i rest ih =>
    intro h
    have hi := h i (List.mem_cons_self _ _)
    simp only [cv_seq_chk, is_consonant_chk_eq i hi, List.map_cons,
      ih (fun j hj => h j (List.mem_cons_of_mem _ hj))]
    rfl

theorem measure_chk_eq (s : Word) : measure_chk s = some (measure s) := by
  rw [measure_chk, measure, cv_seq, cv_seq_chk_eq (fun i hi => List.mem_range.mp hi)]
  rfl

theorem ends_double_consonant_chk_eq (w : Word) :
    ends_double_consonant_chk w = some (ends_double_consonant w) := by
  rw [ends_double_consonant_chk, ends_double_consonant]
  by_cases h2 : 2 ≤ w.length
  · have hne : w ≠ [] := by
      intro h
      subst h
      simp at h2
    rw [if_pos h2, if_pos h2, getLast?_eq_some_getLastD (d := ' ') hne,
      get?_eq_some_getD (d := ' ') (show w.length - 2 < w.length by omega)]
    dsimp only
    split_ifs with heq
    · exact is_consonant_chk_eq _ (by omega)
    · rfl
  · rw [if_neg h2, if_neg h2]

theorem ends_cvc_chk_eq (w : Word) : ends_cvc_chk w = some (ends_cvc w) := by
  rw [ends_cvc_chk, ends_cvc]
  by_cases h2 : w.length = 2
  · rw [if_pos h2, if_pos h2, is_consonant_chk_eq 0 (by omega),
      is_consonant_chk_eq 1 (by omega)]
  · by_cases h3 : 3 ≤ w.length
    · have hne : w ≠ [] := by
        intro h
        subst h
        simp at h3
      rw [if_neg h2, if_neg h2, if_pos h3, if_pos h3,
        is_consonant_chk_eq (w.length - 3) (by omega),
        is_consonant_chk_eq (w.length - 2) (by omega),
        is_consonant_chk_eq (w.length - 1) (by omega),
        getLast?_eq_some_getLastD (d := ' ') hne]
    · rw [if_neg h2, if_neg h2, if_neg h3, if_neg h3]

theorem find_ed_ing_stem_chk_eq (w : Word) :
    find_ed_ing_stem_chk w = some (find_ed_ing_stem w) := by
  rw [find_ed_ing_stem_chk, find_ed_ing_stem]
  have hing : ing_step_chk w =
      some (if "ing".toList <:+ w ∧ contains_vowel (dropR 3 w) then
        some (dropR 3 w) else none) := by
    rw [ing_step_chk]
    by_cases hi : "ing".toList <:+ w
    · rw [if_pos hi, contains_vowel_chk_eq]
      dsimp only
      cases hb : contains_vowel (dropR 3 w) with
      | true => rw [if_pos rfl, if_pos ⟨hi, rfl⟩]
      | false => rw [if_neg (by simp), if_neg (by simp)]
    · rw [if_neg hi,
        if_neg (show ¬("ing".toList <:+ w ∧ contains_vowel (dropR 3 w) = true) from
          fun hc => hi hc.1)]
  by_cases he : "ed".toList <:+ w
  · rw [if_pos he, contains_vowel_chk_eq]
    dsimp only
    cases hb : contains_vowel (dropR 2 w) with
    | true => rw [if_pos rfl, if_pos ⟨he, rfl⟩]
    | false =>
      rw [if_neg (by simp), hing,
        if_neg (show ¬("ed".toList <:+ w ∧ (false : Bool) = true) from by simp)]
  · rw [if_neg he, hing,
      if_neg (show ¬("ed".toList <:+ w ∧ contains_vowel (dropR 2 w) = true) from
        fun hc => he hc.1)]

theorem rule_1b_tail_chk_eq (stem : Word) :
    rule_1b_tail_chk stem =
      some (if measure stem = 1 ∧ ends_cvc stem then stem ++ ['e'] else stem) := by
  rw [rule_1b_tail_chk, measure_chk_eq]
  dsimp only
  by_cases hm : measure stem = 1
  · rw [if_pos hm, ends_cvc_chk_eq]
    dsimp only
    cases hb : ends_cvc stem with
    | true => rw [if_pos rfl, if_pos ⟨hm, rfl⟩]
    | false => rw [if_neg (by simp), if_neg (by simp)]
  · rw [if_neg hm,
      if_neg (show ¬(measure stem = 1 ∧ ends_cvc stem = true) from fun hc => hm hc.1)]

theorem apply_rule_1b_chk_eq (w : Word) :
    apply_rule_1b_chk w = some (apply_rule_1b w) := by
  rw [apply_rule_1b_chk, apply_rule_1b]
  by_cases h1 : "ied".toList <:+ w
  · rw [if_pos h1, if_pos h1]
  · rw [if_neg h1, if_neg h1]
    by_cases h3 : "eed".toList <:+ w
    · rw [if_pos h3, if_pos h3, measure_chk_eq]
    · rw [if_neg h3, if_neg h3, find_ed_ing_stem_chk_eq]
      cases hf : find_ed_ing_stem w with
      | none => rfl
      | some stem =>
        dsimp only
        by_cases h4 : "at".toList <:+ stem ∨ "bl".toList <:+ stem ∨ "iz".toList <:+ stem
        · rw [if_pos h4, if_pos h4]
        · rw [if_neg h4, if_neg h4, ends_double_consonant_chk_eq]
          dsimp only
          cases hdc : ends_double_consonant stem with
          | true =>
            have hne : stem ≠ [] := by
              have := ends_double_consonant_length hdc
              intro h
              subst h
              simp at this
            rw [if_pos rfl, getLast?_eq_some_getLastD (d := ' ') hne]
            dsimp only
            by_cases h5 : stem.getLastD ' ' ∉ ['l', 's', 'z']
            · rw [if_pos h5, if_pos ⟨rfl, h5⟩]
            · rw [if_neg h5,
                if_neg (show ¬((true : Bool) = true ∧
                  stem.getLastD ' ' ∉ ['l', 's', 'z']) from fun hc => h5 hc.2),
                rule_1b_tail_chk_eq]
          | false =>
            rw [if_neg (by simp), if_neg (by simp), rule_1b_tail_chk_eq]

theorem apply_rule_1c_chk_eq (w : Word) :
    apply_rule_1c_chk w = some (apply_rule_1c w) := by
  rw [apply_rule_1c_chk, apply_rule_1c]
  by_cases h1 : "y".toList <:+ w
  · rw [if_pos h1, if_pos h1]
    by_cases h2 : 1 < (dropR 1 w).length
    · rw [if_pos h2, is_consonant_chk_eq _
        (show (dropR 1 w).length - 1 < (dropR 1 w).length by omega)]
      dsimp only
      cases hb : is_consonant (dropR 1 w) ((dropR 1 w).length - 1) with
      | true => rw [if_pos rfl, if_pos ⟨h2, rfl⟩]
      | false => rw [if_neg (by simp), if_neg (by simp)]
    · rw [if_neg h2,
        if_neg (show ¬(1 < (dropR 1 w).length ∧
          is_consonant (dropR 1 w) ((dropR 1 w).length - 1) = true) from
            fun hc => h2 hc.1)]
  · rw [if_neg h1, if_neg h1]

theorem first_suffix_rule_chk_eq (table : List (Word × Word)) (w : Word) :
    first_suffix_rule_chk table w = some (first_suffix_rule table w) := by
  induction table with
  | nil => rfl
  | cons p rest ih =>
    obtain ⟨suf, repl⟩ := p
    rw [first_suffix_rule_chk, first_suffix_rule]
    by_cases h1 : suf <:+ w
    · rw [if_pos h1, measure_chk_eq]
      dsimp only
      by_cases h2 : 0 < measure (dropR suf.length w)
      · rw [if_pos h2, if_pos ⟨h1, h2⟩]
      · rw [if_neg h2,
          if_neg (show ¬(suf <:+ w ∧ 0 < measure (dropR suf.length w)) from
            fun hc => h2 hc.2), ih]
    · rw [if_neg h1,
        if_neg (show ¬(suf <:+ w ∧ 0 < measure (dropR suf.length w)) from
          fun hc => h1 hc.1), ih]

theorem rule_2_tail_chk_eq (w : Word) :
    rule_2_tail_chk w = some (rule_2_tail w) := by
  rw [rule_2_tail_chk, rule_2_tail, first_suffix_rule_chk_eq]
  cases hf : first_suffix_rule rule_2_pairs w with
  | some r => rfl
  | none =>
    dsimp only
    by_cases h1 : "logi".toList <:+ w
    · rw [if_pos h1, measure_chk_eq]
      dsimp only
      by_cases h2 : 0 < measure (dropR 3 w)
      · rw [if_pos h2, if_pos ⟨h1, h2⟩]
      · rw [if_neg h2,
          if_neg (show ¬("logi".toList <:+ w ∧ 0 < measure (dropR 3 w)) from
            fun hc => h2 hc.2)]
    · rw [if_neg h1,
        if_neg (show ¬("logi".toList <:+ w ∧ 0 < measure (dropR 3 w)) from
          fun hc => h1 hc.1)]

theorem apply_rule_2_chk_eq (w : Word) :
    apply_rule_2_chk w = some (apply_rule_2 w) := by
  rw [apply_rule_2_chk, apply_rule_2]
  by_cases h1 : "alli".toList <:+ w
  · rw [if_pos h1, measure_chk_eq]
    dsimp only
    by_cases h2 : 0 < measure (dropR 4 w)
    · rw [if_pos h2, if_pos ⟨h1, h2⟩, rule_2_tail_chk_eq]
    · rw [if_neg h2,
        if_neg (show ¬("alli".toList <:+ w ∧ 0 < measure (dropR 4 w)) from
          fun hc => h2 hc.2), rule_2_tail_chk_eq]
  · rw [if_neg h1,
      if_neg (show ¬("alli".toList <:+ w ∧ 0 < measure (dropR 4 w)) from
        fun hc => h1 hc.1), rule_2_tail_chk_eq]

theorem apply_rule_3_chk_eq (w : Word) :
    apply_rule_3_chk w = some (apply_rule_3 w) := by
  rw [apply_rule_3_chk, apply_rule_3, first_suffix_rule_chk_eq]
  cases hf : first_suffix_rule rule_3_pairs w <;> rfl

theorem first_suffix_drop_chk_eq (sufs : List Word) (w : Word) :
    first_suffix_drop_chk sufs w = some (first_suffix_drop sufs w) := by
  induction sufs with
  | nil => rfl
  | cons suf rest ih =>
    rw [first_suffix_drop_chk, first_suffix_drop]
    by_cases h1 : suf <:+ w
    · rw [if_pos h1, measure_chk_eq]
      dsimp only
      by_cases h2 : 1 < measure (dropR suf.length w)
      · rw [if_pos h2, if_pos ⟨h1, h2⟩]
      · rw [if_neg h2,
          if_neg (show ¬(suf <:+ w ∧ 1 < measure (dropR suf.length w)) from
            fun hc => h2 hc.2), ih]
    · rw [if_neg h1,
        if_neg (show ¬(suf <:+ w ∧ 1 < measure (dropR suf.length w)) from
          fun hc => h1 hc.1), ih]

theorem rule_4_b_chk_eq (w : Word) :
    rule_4_b_chk w =
      some (match first_suffix_drop rule_4_sufs_b w with
        | some r => r
        | none => w) := by
  rw [rule_4_b_chk, first_suffix_drop_chk_eq]
  cases first_suffix_drop rule_4_sufs_b w <;> rfl

theorem apply_rule_4_chk_eq (w : Word) :
    apply_rule_4_chk w = some (apply_rule_4 w) := by
  rw [apply_rule_4_chk, apply_rule_4, first_suffix_drop_chk_eq]
  cases hf : first_suffix_drop rule_4_sufs_a w with
  | some r => rfl
  | none =>
    dsimp only
    by_cases h1 : "ion".toList <:+ w
    · rw [if_pos h1, measure_chk_eq]
      dsimp only
      by_cases h2 : 1 < measure (dropR 3 w)
      · have hne : dropR 3 w ≠ [] :=
          measure_pos_ne_nil (Nat.lt_of_le_of_lt (Nat.zero_le 1) h2)
        rw [if_pos h2, getLast?_eq_some_getLastD (d := ' ') hne]
        dsimp only
        by_cases h5 : (dropR 3 w).getLastD ' ' ∈ ['s', 't']
        · rw [if_pos h5, if_pos ⟨h1, h2, h5⟩]
        · rw [if_neg h5,
            if_neg (show ¬("ion".toList <:+ w ∧ 1 < measure (dropR 3 w) ∧
              (dropR 3 w).getLastD ' ' ∈ ['s', 't']) from fun hc => h5 hc.2.2),
            rule_4_b_chk_eq]
      · rw [if_neg h2,
          if_neg (show ¬("ion".toList <:+ w ∧ 1 < measure (dropR 3 w) ∧
            (dropR 3 w).getLastD ' ' ∈ ['s', 't']) from fun hc => h2 hc.2.1),
          rule_4_b_chk_eq]
    · rw [if_neg h1,
        if_neg (show ¬("ion".toList <:+ w ∧ 1 < measure (dropR 3 w) ∧
          (dropR 3 w).getLastD ' ' ∈ ['s', 't']) from fun hc => h1 hc.1),
        rule_4_b_chk_eq]

theorem apply_rule_5a_chk_eq (w : Word) :
    apply_rule_5a_chk w = some (apply_rule_5a w) := by
  rw [apply_rule_5a_chk, apply_rule_5a]
  by_cases h1 : "e".toList <:+ w
  · rw [if_pos h1, if_pos h1, measure_chk_eq]
    dsimp only
    by_cases h2 : 1 < measure (dropR 1 w)
    · rw [if_pos h2, if_pos h2]
    · rw [if_neg h2, if_neg h2]
      by_cases h3 : measure (dropR 1 w) = 1
      · rw [if_pos h3, ends_cvc_chk_eq]
        dsimp only
        cases hb : ends_cvc (dropR 1 w) with
        | true => rw [if_neg (by simp), if_neg (by simp)]
        | false => rw [if_pos (by simp), if_pos ⟨h3, rfl⟩]
      · rw [if_neg h3,
          if_neg (show ¬(measure (dropR 1 w) = 1 ∧ ends_cvc (dropR 1 w) = false) from
            fun hc => h3 hc.1)]
  · rw [if_neg h1, if_neg h1]

theorem apply_rule_5b_chk_eq (w : Word) :
    apply_rule_5b_chk w = some (apply_rule_5b w) := by
  rw [apply_rule_5b_chk, apply_rule_5b]
  by_cases h1 : "ll".toList <:+ w
  · rw [if_pos h1, measure_chk_eq]
    dsimp only
    by_cases h2 : 1 < measure (dropR 1 w)
    · rw [if_pos h2, if_pos ⟨h1, h2⟩]
    · rw [if_neg h2,
        if_neg (show ¬("ll".toList <:+ w ∧ 1 < measure (dropR 1 w)) from
          fun hc => h2 hc.2)]
  · rw [if_neg h1,
      if_neg (show ¬("ll".toList <:+ w ∧ 1 < measure (dropR 1 w)) from
        fun hc => h1 hc.1)]

/-- C9: the checked evaluation of `stem_word`, in which every letter-index
and last-letter access (the operations on which Python would raise an
`IndexError`) is explicit and error-propagating, never reaches the error
branch: it returns `some` of the total embedding's value on every input and
every dictionary. -/
theorem stem_word_chk_total (dict : Word → Bool) (t : Word) :
    stem_word_chk dict t = some (stem_word dict t) := by
  rw [stem_word_chk, stem_word]
  by_cases hv : is_valid_word dict (normalize_word t) = false
  · rw [if_pos hv, if_pos hv]
  · rw [if_neg hv, if_neg hv]
    cases hl : List.lookup (normalize_word t) get_exceptions with
    | some s => rfl
    | none =>
      dsimp only
      by_cases hlen : (normalize_word t).length ≤ 2
      · rw [if_pos hlen, if_pos hlen]
      · rw [if_neg hlen, if_neg hlen]
        rw [apply_rule_1b_chk_eq]
        dsimp only
        rw [apply_rule_1c_chk_eq]
        dsimp only
        rw [apply_rule_2_chk_eq]
        dsimp only
        rw [apply_rule_3_chk_eq]
        dsimp only
        rw [apply_rule_4_chk_eq]
        dsimp only
        rw [apply_rule_5a_chk_eq]
        dsimp only
        rw [apply_rule_5b_chk_eq]

end Stemming
